import Mathlib

/-!
Verification development for the worker-coordination core documented by the
pupsourcing orchestrator pages.  The partition router is embedded directly
from the Go snippet shown in the database-adapters page
(`HashPartitionStrategy.ShouldProcess`); the coordination-store components
(generations, registrations, heartbeats, the worker state machine, the
processing loop and configuration validation) are modelled from the spec,
since the orchestrator's Go implementation itself is not part of this
documentation repository.
-/

namespace Pup

/-- One step of the 32-bit FNV-1a hash: xor the next byte into the state,
then multiply by the FNV prime 16777619, truncated to 32 bits
(`fnv.New32a` / `h.Write` in the Go standard library). -/
def fnv1a32Step (h b : Nat) : Nat :=
  ((h ^^^ b % 256) * 16777619) % 4294967296

/-- The 32-bit FNV-1a hash of a byte sequence, offset basis 2166136261,
as computed by `fnv.New32a(); h.Write(bytes); h.Sum32()` in Go. -/
def fnv1a32 (bytes : List Nat) : Nat :=
  bytes.foldl fnv1a32Step 2166136261

/-- `HashPartitionStrategy.ShouldProcess` from the documentation's Go source:
`if totalPartitions <= 1 { return true }` and otherwise
`int(h.Sum32()) % totalPartitions == partitionKey`, where Go's `%` on a
non-negative dividend is truncated division remainder (`Int.tmod`) and
`int(uint32)` on a 64-bit platform preserves the value. -/
def ShouldProcess (aggregateID : List Nat) (partitionKey totalPartitions : Int) : Bool :=
  if totalPartitions ≤ 1 then
    true
  else
    Int.tmod (Int.ofNat (fnv1a32 aggregateID)) totalPartitions == partitionKey

/-- The Partition Router reference definition, written from the spec's words:
`owns(routingKey, myPartitionKey, totalPartitions)` returns true whenever
`totalPartitions <= 1`, and otherwise returns true exactly when the 32-bit
FNV-1a hash of the routing key, taken modulo `totalPartitions`, equals
`myPartitionKey`. -/
def owns (routingKey : List Nat) (myPartitionKey totalPartitions : Int) : Bool :=
  if totalPartitions ≤ 1 then
    true
  else
    (Int.ofNat (fnv1a32 routingKey)) % totalPartitions == myPartitionKey

theorem shouldProcess_true_of_le_one (k : List Nat) (p N : Int) (h : N ≤ 1) :
    ShouldProcess k p N = true := by
  simp [ShouldProcess, h]

theorem shouldProcess_of_ge_two (k : List Nat) (p N : Int) (h : ¬ N ≤ 1) :
    ShouldProcess k p N = (Int.tmod (Int.ofNat (fnv1a32 k)) N == p) := by
  simp [ShouldProcess, h]

/-- C1: for every routing key `k` and every partition count `N ≥ 1`, exactly
one partition index `p ∈ {0,…,N-1}` satisfies `owns(k, p, N) = true`
(embedded as `ShouldProcess`); in particular for `N = 1` the single index 0
owns every key. -/
theorem shouldProcess_unique_owner (k : List Nat) (N : Int) (hN : 1 ≤ N) :
    (∃! p : Int, 0 ≤ p ∧ p < N ∧ ShouldProcess k p N = true) ∧
      ShouldProcess k 0 1 = true := by
  constructor
  · by_cases h1 : N ≤ 1
    · refine ⟨0, ⟨le_refl 0, by omega, shouldProcess_true_of_le_one k 0 N h1⟩, ?_⟩
      intro y hy
      omega
    · refine ⟨Int.tmod (Int.ofNat (fnv1a32 k)) N, ⟨?_, ?_, ?_⟩, ?_⟩
      · exact Int.tmod_nonneg N (Int.ofNat_nonneg _)
      · exact Int.tmod_lt_of_pos _ (by omega)
      · rw [shouldProcess_of_ge_two k _ N h1]
        simp
      · intro y hy
        rw [shouldProcess_of_ge_two k y N h1] at hy
        have := hy.2.2
        simp only [beq_iff_eq] at this
        omega
  · exact shouldProcess_true_of_le_one k 0 1 (le_refl 1)

/-- Witness for C1 at a concrete routing key and partition count. -/
theorem shouldProcess_unique_owner_witness :
    (1 : Int) ≤ 3 ∧
      ((∃! p : Int, 0 ≤ p ∧ p < 3 ∧ ShouldProcess [104, 105] p 3 = true) ∧
        ShouldProcess [104, 105] 0 1 = true) :=
  ⟨by decide, shouldProcess_unique_owner [104, 105] 3 (by decide)⟩

/-- C2: the embedded `ShouldProcess` agrees with the spec's reference
definition `owns` on every input: true whenever `totalPartitions ≤ 1`, and
otherwise true exactly when the 32-bit FNV-1a hash of the routing key, taken
modulo `totalPartitions`, equals `myPartitionKey`. -/
theorem shouldProcess_eq_owns (k : List Nat) (p N : Int) :
    ShouldProcess k p N = owns k p N := by
  by_cases h1 : N ≤ 1
  · simp [ShouldProcess, owns, h1]
  · have hN : (0 : Int) ≤ N := by omega
    simp only [ShouldProcess, owns, if_neg h1]
    have h2 := Int.tmod_eq_emod (a := Int.ofNat (fnv1a32 k)) (b := N)
      (Int.ofNat_nonneg _) hN
    rw [h2]

/-- A row of the `orchestrator_generations` table for one replica set:
generation id, total partitions, and whether `superseded_at` is non-null. -/
structure GenRow where
  gid : Nat
  totalPartitions : Nat
  superseded : Bool
deriving DecidableEq

/-- The generations table of one replica set, rows in creation order. -/
abbrev GenStore := List GenRow

/-- The current generation: the row whose `supersededAt` is null. -/
def currentGen (s : GenStore) : Option GenRow :=
  s.find? fun r => !r.superseded

/-- Mark the row with generation id `g` as superseded. -/
def supersedeRow (g : Nat) (r : GenRow) : GenRow :=
  if r.gid = g then { r with superseded := true } else r

/-- Modelled from the spec: the Generation Manager's atomic conditional write
(the orchestrator's Go implementation is not part of this documentation
repository).  An attempt expects a snapshot of the current generation id
(`none` for an empty table) and carries the alive-worker count: it succeeds
only if the expected generation is still the unsuperseded one, in which case
it marks that row superseded and appends generation `N+1` with
`totalPartitions = alive`, as one atomic step; with an alive count of zero no
generation is created; a losing attempt leaves the store unchanged. -/
def attemptCreate (s : GenStore) (expected : Option Nat) (alive : Nat) : GenStore × Bool :=
  if alive = 0 then (s, false)
  else
    match currentGen s, expected with
    | none, none => (s ++ [⟨1, alive, false⟩], true)
    | some r, some e =>
        if r.gid = e then
          (s.map (supersedeRow r.gid) ++ [⟨r.gid + 1, alive, false⟩], true)
        else (s, false)
    | _, _ => (s, false)

/-- The reachable states of the generations table: empty at first, then
closed under generation-creation attempts. -/
inductive ReachGen : GenStore → Prop
  | init : ReachGen []
  | step (s : GenStore) (e : Option Nat) (a : Nat) : ReachGen s → ReachGen (attemptCreate s e a).1

/-- Number of unsuperseded rows. -/
def unsupCount (s : GenStore) : Nat :=
  (s.filter fun r => !r.superseded).length

/-- Invariant of the generations table: a nonempty table has exactly one
unsuperseded row, generation ids strictly increase in creation order, the
unsuperseded row is the newest, and every row has at least one partition. -/
def InvGen (s : GenStore) : Prop :=
  (s = [] ∨ unsupCount s = 1) ∧
    List.Chain' (fun a b => a.gid < b.gid) s ∧
    (∀ r ∈ s, r.superseded = false → s.getLast? = some r) ∧
    (∀ r ∈ s, 1 ≤ r.totalPartitions)

theorem attemptCreate_zero (s : GenStore) (e : Option Nat) :
    attemptCreate s e 0 = (s, false) := by
  unfold attemptCreate
  simp

theorem attemptCreate_first {s : GenStore} {a : Nat} (ha : a ≠ 0)
    (hc : currentGen s = none) :
    attemptCreate s none a = (s ++ [⟨1, a, false⟩], true) := by
  unfold attemptCreate
  rw [if_neg ha, hc]

theorem attemptCreate_win {s : GenStore} {r : GenRow} {a e : Nat} (ha : a ≠ 0)
    (hc : currentGen s = some r) (he : r.gid = e) :
    attemptCreate s (some e) a =
      (s.map (supersedeRow r.gid) ++ [⟨r.gid + 1, a, false⟩], true) := by
  unfold attemptCreate
  rw [if_neg ha, hc]
  simp [he]

theorem attemptCreate_stale {s : GenStore} {r : GenRow} {e : Nat} (a : Nat)
    (hc : currentGen s = some r) (hne : r.gid ≠ e) :
    attemptCreate s (some e) a = (s, false) := by
  by_cases ha : a = 0
  · rw [ha, attemptCreate_zero]
  · unfold attemptCreate
    rw [if_neg ha, hc]
    simp [hne]

theorem attemptCreate_none_some {s : GenStore} {e : Nat} (a : Nat)
    (hc : currentGen s = none) :
    attemptCreate s (some e) a = (s, false) := by
  by_cases ha : a = 0
  · rw [ha, attemptCreate_zero]
  · unfold attemptCreate
    rw [if_neg ha, hc]

theorem attemptCreate_some_none {s : GenStore} {r : GenRow} (a : Nat)
    (hc : currentGen s = some r) :
    attemptCreate s none a = (s, false) := by
  by_cases ha : a = 0
  · rw [ha, attemptCreate_zero]
  · unfold attemptCreate
    rw [if_neg ha, hc]

theorem supersedeRow_gid (g : Nat) (r : GenRow) : (supersedeRow g r).gid = r.gid := by
  unfold supersedeRow
  split <;> rfl

theorem supersedeRow_totalPartitions (g : Nat) (r : GenRow) :
    (supersedeRow g r).totalPartitions = r.totalPartitions := by
  unfold supersedeRow
  split <;> rfl

theorem currentGen_mem {s : GenStore} {r : GenRow} (h : currentGen s = some r) :
    r ∈ s ∧ r.superseded = false := by
  refine ⟨List.mem_of_find?_eq_some h, ?_⟩
  have := List.find?_some h
  simpa using this

/-- After a successful supersede-and-append, every mapped row is superseded. -/
theorem mapped_all_superseded {s : GenStore} {r : GenRow} (hinv : InvGen s)
    (hc : currentGen s = some r) :
    ∀ q ∈ s.map (supersedeRow r.gid), q.superseded = true := by
  intro q hq
  rcases List.mem_map.1 hq with ⟨q₀, hq₀, rfl⟩
  by_cases hg : q₀.gid = r.gid
  · simp [supersedeRow, hg]
  · unfold supersedeRow
    rw [if_neg hg]
    by_contra hns
    have hq₀f : q₀.superseded = false := by
      cases h : q₀.superseded
      · rfl
      · exact absurd h hns
    have h1 := hinv.2.2.1 q₀ hq₀ hq₀f
    have h2 := hinv.2.2.1 r (currentGen_mem hc).1 (currentGen_mem hc).2
    rw [h1] at h2
    have : q₀ = r := by injection h2
    exact hg (by rw [this])

theorem currentGen_after_success {s : GenStore} {r : GenRow} {a : Nat} (hinv : InvGen s)
    (hc : currentGen s = some r) :
    currentGen (s.map (supersedeRow r.gid) ++ [⟨r.gid + 1, a, false⟩]) =
      some ⟨r.gid + 1, a, false⟩ := by
  unfold currentGen
  rw [List.find?_append]
  have hnone : (s.map (supersedeRow r.gid)).find? (fun q => !q.superseded) = none := by
    rw [List.find?_eq_none]
    intro q hq
    have := mapped_all_superseded hinv hc q hq
    simp [this]
  rw [hnone]
  rfl

/-- A table with no current generation is empty, given the invariant. -/
theorem empty_of_currentGen_none {s : GenStore} (hinv : InvGen s)
    (hc : currentGen s = none) : s = [] := by
  rcases hinv.1 with h0 | h1
  · exact h0
  · exfalso
    have hne : s.filter (fun q => !q.superseded) ≠ [] := by
      intro hnil
      rw [unsupCount, hnil] at h1
      simp at h1
    rcases List.exists_mem_of_ne_nil _ hne with ⟨q, hq⟩
    have hqs := List.of_mem_filter hq
    have hqm := List.mem_of_mem_filter hq
    exact (List.find?_eq_none.1 hc) q hqm hqs

theorem invGen_after_first {a : Nat} (ha : a ≠ 0) :
    InvGen ([] ++ [(⟨1, a, false⟩ : GenRow)]) := by
  refine ⟨Or.inr ?_, ?_, ?_, ?_⟩
  · simp [unsupCount]
  · simp
  · intro q hq _
    have hq' : q = ⟨1, a, false⟩ := by simpa using hq
    rw [hq']
    rfl
  · intro q hq
    have hq' : q = ⟨1, a, false⟩ := by simpa using hq
    rw [hq']
    simp only
    omega

theorem invGen_after_win {s : GenStore} {r : GenRow} {a : Nat} (ha : a ≠ 0)
    (hinv : InvGen s) (hc : currentGen s = some r) :
    InvGen (s.map (supersedeRow r.gid) ++ [⟨r.gid + 1, a, false⟩]) := by
  have hlast : s.getLast? = some r :=
    hinv.2.2.1 r (currentGen_mem hc).1 (currentGen_mem hc).2
  have hmapgid : ∀ q₀ : GenRow, (supersedeRow r.gid q₀).gid = q₀.gid :=
    supersedeRow_gid r.gid
  refine ⟨Or.inr ?_, ?_, ?_, ?_⟩
  · rw [unsupCount, List.filter_append]
    have hf1 : (s.map (supersedeRow r.gid)).filter (fun q => !q.superseded) = [] := by
      rw [List.filter_eq_nil_iff]
      intro q hq
      have := mapped_all_superseded hinv hc q hq
      simp [this]
    rw [hf1]
    rfl
  · refine List.Chain'.append ?_ ?_ ?_
    · rw [List.chain'_map]
      refine hinv.2.1.imp ?_
      intro x y hxy
      rw [hmapgid x, hmapgid y]
      exact hxy
    · simp
    · intro x hx y hy
      rw [List.getLast?_map, hlast] at hx
      have hx' : supersedeRow r.gid r = x := by simpa using hx
      have hy' : ({ gid := r.gid + 1, totalPartitions := a, superseded := false } : GenRow) = y := by
        simpa using hy
      rw [← hy', ← hx', hmapgid r]
      show r.gid < r.gid + 1
      omega
  · intro q hq hqf
    rw [List.getLast?_concat]
    rcases List.mem_append.1 hq with hq1 | hq2
    · exact absurd (mapped_all_superseded hinv hc q hq1) (by simp [hqf])
    · have hq' : q = ⟨r.gid + 1, a, false⟩ := by simpa using hq2
      rw [hq']
  · intro q hq
    rcases List.mem_append.1 hq with hq1 | hq2
    · rcases List.mem_map.1 hq1 with ⟨q₀, hq₀, rfl⟩
      rw [supersedeRow_totalPartitions]
      exact hinv.2.2.2 q₀ hq₀
    · have hq' : q = ⟨r.gid + 1, a, false⟩ := by simpa using hq2
      rw [hq']
      simp only
      omega

/-- A reachable generations table satisfies the invariant. -/
theorem reachGen_inv {s : GenStore} (h : ReachGen s) : InvGen s := by
  induction h with
  | init =>
      refine ⟨Or.inl rfl, ?_, ?_, ?_⟩
      · simp
      · intro r hr
        cases hr
      · intro r hr
        cases hr
  | step s e a hs ih =>
      by_cases ha : a = 0
      · rw [ha, attemptCreate_zero]
        exact ih
      · rcases hcg : currentGen s with _ | r
        · rcases e with _ | e
          · have hempty := empty_of_currentGen_none ih hcg
            rw [attemptCreate_first ha hcg, hempty]
            exact invGen_after_first ha
          · rw [attemptCreate_none_some a hcg]
            exact ih
        · rcases e with _ | e
          · rw [attemptCreate_some_none a hcg]
            exact ih
          · by_cases hge : r.gid = e
            · rw [← hge, attemptCreate_win ha hcg rfl]
              exact invGen_after_win ha ih hcg
            · rw [attemptCreate_stale a hcg hge]
              exact ih

/-- Generation ids are never deleted: any creation attempt leaves the existing
rows' ids as a prefix of the resulting table's ids. -/
theorem attemptCreate_gid_grow (s : GenStore) (e : Option Nat) (a : Nat) :
    (s.map GenRow.gid) <+: ((attemptCreate s e a).1.map GenRow.gid) := by
  by_cases ha : a = 0
  · rw [ha, attemptCreate_zero]
  · rcases hcg : currentGen s with _ | r
    · rcases e with _ | e
      · rw [attemptCreate_first ha hcg]
        exact ⟨[1], by simp⟩
      · rw [attemptCreate_none_some a hcg]
    · rcases e with _ | e
      · rw [attemptCreate_some_none a hcg]
      · by_cases hge : r.gid = e
        · rw [← hge, attemptCreate_win ha hcg rfl]
          refine ⟨[r.gid + 1], ?_⟩
          rw [List.map_append, List.map_map]
          have hcomp : s.map (GenRow.gid ∘ supersedeRow r.gid) = s.map GenRow.gid := by
            apply List.map_congr_left
            intro q _
            exact supersedeRow_gid r.gid q
          rw [hcomp]
          simp
        · rw [attemptCreate_stale a hcg hge]

/-- C3: in every reachable state of the coordination store, at most one
generation row is unsuperseded, the generation ids are strictly increasing in
creation order, and a further creation attempt never deletes a generation
(the old ids stay a prefix of the new ids). -/
theorem generation_monotone (s : GenStore) (h : ReachGen s) :
    (s.filter fun r => !r.superseded).length ≤ 1 ∧
      List.Chain' (fun a b => a.gid < b.gid) s ∧
      ∀ e a, (s.map GenRow.gid) <+: ((attemptCreate s e a).1.map GenRow.gid) := by
  have hinv := reachGen_inv h
  refine ⟨?_, hinv.2.1, ?_⟩
  · rcases hinv.1 with h0 | h1
    · rw [h0]
      simp
    · rw [unsupCount] at h1
      omega
  · intro e a
    exact attemptCreate_gid_grow s e a

/-- A concrete reachable one-row generations table. -/
theorem reachGen_example1 :
    ReachGen [({ gid := 1, totalPartitions := 1, superseded := false } : GenRow)] := by
  have h := ReachGen.step [] none 1 ReachGen.init
  rw [attemptCreate_first (s := []) (by decide) rfl] at h
  simpa using h

/-- Witness for C3 at a concrete reachable store. -/
theorem generation_monotone_witness :
    ReachGen [({ gid := 1, totalPartitions := 1, superseded := false } : GenRow)] ∧
      (([({ gid := 1, totalPartitions := 1, superseded := false } : GenRow)].filter
          fun r => !r.superseded).length ≤ 1 ∧
        List.Chain' (fun a b => a.gid < b.gid)
          [({ gid := 1, totalPartitions := 1, superseded := false } : GenRow)] ∧
        ∀ e a,
          ([({ gid := 1, totalPartitions := 1, superseded := false } : GenRow)].map GenRow.gid) <+:
            ((attemptCreate [({ gid := 1, totalPartitions := 1, superseded := false } : GenRow)]
                e a).1.map GenRow.gid)) :=
  ⟨reachGen_example1, generation_monotone _ reachGen_example1⟩

/-- Modelled from the spec: a batch of concurrent generation-creation
attempts that all hold the same snapshot `expected` of the current
generation id, serialized by the store's atomic conditional write (the
attempts execute one after another against the shared table); returns the
final table and the number of attempts that won. -/
def runAttempts (expected : Option Nat) : GenStore → List Nat → GenStore × Nat
  | s, [] => (s, 0)
  | s, a :: rest =>
      let t := attemptCreate s expected a
      let q := runAttempts expected t.1 rest
      (q.1, (if t.2 then 1 else 0) + q.2)

/-- Once the expected generation is superseded, every remaining attempt
loses and leaves the table unchanged. -/
theorem runAttempts_stale {s : GenStore} {r : GenRow} {e : Nat}
    (hc : currentGen s = some r) (hne : r.gid ≠ e) (l : List Nat) :
    runAttempts (some e) s l = (s, 0) := by
  induction l with
  | nil => rfl
  | cons a rest ih =>
      simp only [runAttempts, attemptCreate_stale a hc hne]
      simp [ih]

/-- C6: when several workers race to create the successor generation from the
same snapshot, exactly one attempt wins, the final table is the winner's
single atomic write, and exactly one new generation row is created. -/
theorem concurrent_create_one_winner (s : GenStore) (hr : ReachGen s) (r : GenRow)
    (hc : currentGen s = some r) (a : Nat) (ha : a ≠ 0) (rest : List Nat) :
    (runAttempts (some r.gid) s (a :: rest)).2 = 1 ∧
      (runAttempts (some r.gid) s (a :: rest)).1 = (attemptCreate s (some r.gid) a).1 ∧
      (runAttempts (some r.gid) s (a :: rest)).1.length = s.length + 1 := by
  have hinv := reachGen_inv hr
  have hwin := attemptCreate_win ha hc rfl
  have hcur := currentGen_after_success (a := a) hinv hc
  have hne : ({ gid := r.gid + 1, totalPartitions := a, superseded := false } : GenRow).gid
      ≠ r.gid := by
    show r.gid + 1 ≠ r.gid
    omega
  have hrest := runAttempts_stale hcur hne rest
  have hstep : runAttempts (some r.gid) s (a :: rest) =
      (s.map (supersedeRow r.gid) ++ [⟨r.gid + 1, a, false⟩], 1) := by
    simp only [runAttempts, hwin]
    simp [hrest]
  refine ⟨?_, ?_, ?_⟩
  · rw [hstep]
  · rw [hstep, hwin]
  · rw [hstep]
    simp

/-- Witness for C6: three simultaneous joins to a one-generation store create
exactly one new generation. -/
theorem concurrent_create_one_winner_witness :
    ReachGen [({ gid := 1, totalPartitions := 1, superseded := false } : GenRow)] ∧
      currentGen [({ gid := 1, totalPartitions := 1, superseded := false } : GenRow)] =
        some ({ gid := 1, totalPartitions := 1, superseded := false } : GenRow) ∧
      (3 : Nat) ≠ 0 ∧
      ((runAttempts (some 1) [({ gid := 1, totalPartitions := 1, superseded := false } : GenRow)]
          [3, 3, 3]).2 = 1 ∧
        (runAttempts (some 1) [({ gid := 1, totalPartitions := 1, superseded := false } : GenRow)]
            [3, 3, 3]).1 =
          (attemptCreate [({ gid := 1, totalPartitions := 1, superseded := false } : GenRow)]
              (some 1) 3).1 ∧
        (runAttempts (some 1) [({ gid := 1, totalPartitions := 1, superseded := false } : GenRow)]
            [3, 3, 3]).1.length =
          [({ gid := 1, totalPartitions := 1, superseded := false } : GenRow)].length + 1) :=
  ⟨reachGen_example1, rfl, by decide,
    concurrent_create_one_winner _ reachGen_example1
      ({ gid := 1, totalPartitions := 1, superseded := false } : GenRow) rfl 3 (by decide)
      [3, 3]⟩

/-- C8: every generation row of a reachable store has at least one partition;
a creation attempt with an alive count of zero creates nothing; and a
successful attempt appends a generation whose `totalPartitions` equals the
alive count at creation time. -/
theorem generation_totalPartitions_alive (s : GenStore) (h : ReachGen s) :
    (∀ r ∈ s, 1 ≤ r.totalPartitions) ∧
      (∀ e, attemptCreate s e 0 = (s, false)) ∧
      (∀ e a, (attemptCreate s e a).2 = true →
        ∃ g, (attemptCreate s e a).1.getLast? = some g ∧
          g.totalPartitions = a ∧ 1 ≤ a ∧ g.superseded = false) := by
  have hinv := reachGen_inv h
  refine ⟨hinv.2.2.2, fun e => attemptCreate_zero s e, ?_⟩
  intro e a hsucc
  by_cases ha : a = 0
  · rw [ha, attemptCreate_zero] at hsucc
    cases hsucc
  · rcases hcg : currentGen s with _ | r
    · rcases e with _ | e
      · rw [attemptCreate_first ha hcg] at hsucc ⊢
        refine ⟨⟨1, a, false⟩, ?_, rfl, by omega, rfl⟩
        exact List.getLast?_concat s
      · rw [attemptCreate_none_some a hcg] at hsucc
        cases hsucc
    · rcases e with _ | e
      · rw [attemptCreate_some_none a hcg] at hsucc
        cases hsucc
      · by_cases hge : r.gid = e
        · rw [← hge, attemptCreate_win ha hcg rfl] at hsucc ⊢
          refine ⟨⟨r.gid + 1, a, false⟩, ?_, rfl, by omega, rfl⟩
          exact List.getLast?_concat _
        · rw [attemptCreate_stale a hcg hge] at hsucc
          cases hsucc

/-- Witness for C8 at a concrete reachable store. -/
theorem generation_totalPartitions_alive_witness :
    ReachGen [({ gid := 1, totalPartitions := 1, superseded := false } : GenRow)] ∧
      ((∀ r ∈ [({ gid := 1, totalPartitions := 1, superseded := false } : GenRow)],
          1 ≤ r.totalPartitions) ∧
        (∀ e, attemptCreate [({ gid := 1, totalPartitions := 1, superseded := false } : GenRow)]
            e 0 =
          ([({ gid := 1, totalPartitions := 1, superseded := false } : GenRow)], false)) ∧
        (∀ e a,
          (attemptCreate [({ gid := 1, totalPartitions := 1, superseded := false } : GenRow)]
              e a).2 = true →
          ∃ g,
            (attemptCreate [({ gid := 1, totalPartitions := 1, superseded := false } : GenRow)]
                e a).1.getLast? = some g ∧
              g.totalPartitions = a ∧ 1 ≤ a ∧ g.superseded = false)) :=
  ⟨reachGen_example1, generation_totalPartitions_alive _ reachGen_example1⟩

/-- A WorkerRegistration row: worker id, generation id and assigned
partition index. -/
structure Registration where
  workerID : Nat
  genID : Nat
  partitionKey : Nat
deriving DecidableEq

/-- Modelled from the spec: the Partition Assigner (the orchestrator's Go
implementation is not part of this documentation repository).  A durably
committed registration receives the next index of a serial counter scoped to
the generation: the number of registrations already committed for that
generation, so the first committed registration receives partition 0. -/
def registerWorker (regs : List Registration) (w g : Nat) : List Registration :=
  regs ++ [⟨w, g, (regs.filter fun r => r.genID == g).length⟩]

/-- Commit the registrations of `ws` for generation `g` in order. -/
def registerAll (g : Nat) : List Registration → List Nat → List Registration
  | regs, [] => regs
  | regs, w :: ws => registerAll g (registerWorker regs w g) ws

theorem registerAll_keys (g : Nat) (ws : List Nat) :
    ∀ regs : List Registration,
      ((registerAll g regs ws).filter fun r => r.genID == g).map Registration.partitionKey =
        ((regs.filter fun r => r.genID == g).map Registration.partitionKey) ++
          List.range' (regs.filter fun r => r.genID == g).length ws.length := by
  induction ws with
  | nil =>
      intro regs
      simp [registerAll]
  | cons w ws ih =>
      intro regs
      have hfil : (registerWorker regs w g).filter (fun r => r.genID == g) =
          (regs.filter fun r => r.genID == g) ++
            [⟨w, g, (regs.filter fun r => r.genID == g).length⟩] := by
        rw [registerWorker, List.filter_append]
        simp
      have hstep := ih (registerWorker regs w g)
      rw [registerAll] at *
      rw [hstep, hfil]
      rw [List.map_append, List.length_append]
      simp only [List.map_cons, List.map_nil, List.length_cons, List.length_nil]
      rw [List.append_assoc, List.range'_succ]
      congr 1

/-- C4: for a generation with no prior registrations, committing the
registrations of `N` workers in order assigns the partition keys
`0, 1, …, N-1` in commit order — the set of registered keys is exactly
`{0,…,N-1}`, with no duplicates and no gaps, and the first committed
registration receives partition 0. -/
theorem partition_assignment_complete (regs : List Registration) (g N : Nat)
    (ws : List Nat) (hempty : regs.filter (fun r => r.genID == g) = [])
    (hN : ws.length = N) :
    ((registerAll g regs ws).filter fun r => r.genID == g).map Registration.partitionKey =
      List.range N := by
  rw [registerAll_keys g ws regs, hempty, hN]
  simp [List.range_eq_range']

/-- Witness for C4: three workers registering into an empty generation
receive partitions 0, 1, 2 in commit order. -/
theorem partition_assignment_complete_witness :
    ([] : List Registration).filter (fun r => r.genID == 1) = [] ∧
      [10, 11, 12].length = 3 ∧
      ((registerAll 1 [] [10, 11, 12]).filter fun r => r.genID == 1).map
          Registration.partitionKey =
        List.range 3 :=
  ⟨rfl, rfl, partition_assignment_complete [] 1 3 [10, 11, 12] rfl rfl⟩

/-- The phases of the per-worker Coordination State Machine that recreate
safety turns on; `registering last` remembers the newest generation the
worker has participated in (0 before any). -/
inductive WPhase where
  | registering (last : Nat)
  | awaiting (gen : Nat)
  | processing (gen : Nat)
deriving DecidableEq

/-- Observable actions of one worker. -/
inductive WLabel where
  | register (gen : Nat)
  | beginProcessing (gen : Nat)
  | handle (gen : Nat) (ev : Nat)
  | observeSuperseded (gen : Nat)
deriving DecidableEq

/-- Modelled from the spec: the per-worker Coordination State Machine of the
recreate strategy (the orchestrator's Go implementation is not part of this
documentation repository).  The projection handler runs only in `processing`;
observing that the current generation's `supersededAt` became non-null
atomically stops the Event Processing Loop and moves the worker to
`registering`; from `registering` the worker can only register into a
strictly newer generation, since the current unsuperseded generation has a
larger id than any superseded one (generation monotonicity). -/
inductive WStep : WPhase → WLabel → WPhase → Prop
  | register (last g : Nat) (h : last < g) :
      WStep (.registering last) (.register g) (.awaiting g)
  | beginProcessing (g : Nat) :
      WStep (.awaiting g) (.beginProcessing g) (.processing g)
  | handle (g ev : Nat) :
      WStep (.processing g) (.handle g ev) (.processing g)
  | observe (g : Nat) :
      WStep (.processing g) (.observeSuperseded g) (.registering g)

/-- A run of the worker machine: the list of labels of consecutive steps. -/
inductive WRun : WPhase → List WLabel → WPhase → Prop
  | nil (p : WPhase) : WRun p [] p
  | cons {p q r : WPhase} {l : WLabel} {tr : List WLabel} :
      WStep p l q → WRun q tr r → WRun p (l :: tr) r

/-- Smallest generation any future handler invocation can be for. -/
def minNext : WPhase → Nat
  | .registering last => last + 1
  | .awaiting g => g
  | .processing g => g

theorem wStep_minNext_mono {p q : WPhase} {l : WLabel} (h : WStep p l q) :
    minNext p ≤ minNext q := by
  cases h with
  | register last g hlt => exact hlt
  | beginProcessing g => exact le_refl _
  | handle g ev => exact le_refl _
  | observe g => exact Nat.le_succ g

theorem wStep_handle_ge {p q : WPhase} {g ev : Nat}
    (h : WStep p (.handle g ev) q) : minNext p ≤ g := by
  cases h
  exact le_refl _

/-- Every handler invocation in a run is for a generation at least as new as
the start phase allows. -/
theorem wRun_handle_ge {p p' : WPhase} {tr : List WLabel} (h : WRun p tr p') :
    ∀ g ev, WLabel.handle g ev ∈ tr → minNext p ≤ g := by
  induction h with
  | nil => intro g ev hmem; cases hmem
  | cons hstep hrun ih =>
      intro g ev hmem
      rcases List.mem_cons.1 hmem with hhead | htail
      · exact wStep_handle_ge (hhead ▸ hstep)
      · exact le_trans (wStep_minNext_mono hstep) (ih g ev htail)

/-- From `registering` the machine's first action is a registration into a
strictly newer generation. -/
theorem wRun_registering_head {last : Nat} {l : WLabel} {tr : List WLabel} {p' : WPhase}
    (h : WRun (.registering last) (l :: tr) p') :
    ∃ g, l = .register g ∧ last < g := by
  cases h with
  | cons hstep hrun =>
      cases hstep with
      | register last g hlt => exact ⟨g, rfl, hlt⟩

/-- Runs split across list append. -/
theorem wRun_append {p p' : WPhase} (a b : List WLabel)
    (h : WRun p (a ++ b) p') : ∃ q, WRun p a q ∧ WRun q b p' := by
  induction a generalizing p with
  | nil => exact ⟨p, WRun.nil p, h⟩
  | cons l a ih =>
      cases h with
      | cons hstep hrun =>
          rcases ih hrun with ⟨q, h1, h2⟩
          exact ⟨q, WRun.cons hstep h1, h2⟩

/-- C5: once a worker observes its generation `g` superseded, it never again
invokes the handler under generation `g` — every later handler invocation is
for a strictly newer generation, and the first action after the observation,
before any handling resumes, is a re-registration into a strictly newer
generation (the loop is stopped before re-registering). -/
theorem recreate_safety (p₀ p₁ : WPhase) (tr₁ tr₂ : List WLabel) (g : Nat)
    (h : WRun p₀ (tr₁ ++ WLabel.observeSuperseded g :: tr₂) p₁) :
    (∀ g' ev, WLabel.handle g' ev ∈ tr₂ → g < g') ∧
      (∀ g' ev, WLabel.handle g' ev ∈ tr₂ →
        ∃ g'' tb, tr₂ = WLabel.register g'' :: tb ∧ g < g'') := by
  rcases wRun_append tr₁ _ h with ⟨q, _, h2⟩
  cases h2 with
  | cons hstep hrun =>
      cases hstep with
      | observe _ =>
          constructor
          · intro g' ev hmem
            have := wRun_handle_ge hrun g' ev hmem
            simpa [minNext] using this
          · intro g' ev hmem
            rcases tr₂ with _ | ⟨l, tb⟩
            · cases hmem
            · rcases wRun_registering_head hrun with ⟨g'', hl, hlt⟩
              exact ⟨g'', tb, by rw [hl], hlt⟩

/-- Witness for C5: a concrete run that observes supersession of generation
1, re-registers into generation 2 and handles an event there. -/
theorem recreate_safety_witness :
    WRun (WPhase.processing 1)
        ([] ++ WLabel.observeSuperseded 1 ::
          [WLabel.register 2, WLabel.beginProcessing 2, WLabel.handle 2 7])
        (WPhase.processing 2) ∧
      ((∀ g' ev,
          WLabel.handle g' ev ∈
              [WLabel.register 2, WLabel.beginProcessing 2, WLabel.handle 2 7] →
            1 < g') ∧
        (∀ g' ev,
          WLabel.handle g' ev ∈
              [WLabel.register 2, WLabel.beginProcessing 2, WLabel.handle 2 7] →
            ∃ g'' tb,
              [WLabel.register 2, WLabel.beginProcessing 2, WLabel.handle 2 7] =
                  WLabel.register g'' :: tb ∧ 1 < g'')) :=
  have hrun : WRun (WPhase.processing 1)
      ([] ++ WLabel.observeSuperseded 1 ::
        [WLabel.register 2, WLabel.beginProcessing 2, WLabel.handle 2 7])
      (WPhase.processing 2) :=
    WRun.cons (WStep.observe 1)
      (WRun.cons (WStep.register 1 2 (by decide))
        (WRun.cons (WStep.beginProcessing 2)
          (WRun.cons (WStep.handle 2 7) (WRun.nil _))))
  ⟨hrun, recreate_safety _ _ _ _ 1 hrun⟩

/-- A registration row of the `orchestrator_workers` table. -/
structure WorkerRow where
  workerID : Nat
deriving DecidableEq

/-- A row of the `orchestrator_heartbeats` table. -/
structure HeartbeatRow where
  workerID : Nat
  heartbeatAt : Int
deriving DecidableEq

/-- Modelled from the spec: the Membership Monitor's recency test (the
orchestrator's Go implementation is not part of this documentation
repository).  A worker has a recent heartbeat iff some heartbeat row of it
satisfies `heartbeat_at > NOW() - staleWorkerTimeout`, matching the
documented SQL `EXISTS (... h.heartbeat_at > NOW() - INTERVAL '30 seconds')`;
a worker whose latest heartbeat fails this test has aged past the timeout
and is stale. -/
def hasRecentHeartbeat (hbs : List HeartbeatRow) (w : Nat) (now timeout : Int) : Bool :=
  hbs.any fun h => h.workerID == w && now - timeout < h.heartbeatAt

/-- The worker's most recent heartbeat timestamp, if any. -/
def latestHeartbeat (hbs : List HeartbeatRow) (w : Nat) : Option Int :=
  match hbs with
  | [] => none
  | h :: rest =>
      match latestHeartbeat rest w, h.workerID == w with
      | none, true => some h.heartbeatAt
      | none, false => none
      | some t, true => some (max h.heartbeatAt t)
      | some t, false => some t

/-- Modelled from the spec: one Membership Monitor sweep keeps exactly the
registration rows of workers with a recent heartbeat and removes the rest. -/
def sweepWorkers (workers : List WorkerRow) (hbs : List HeartbeatRow)
    (now timeout : Int) : List WorkerRow :=
  workers.filter fun w => hasRecentHeartbeat hbs w.workerID now timeout

/-- Modelled from the spec: the same sweep on the heartbeat rows. -/
def sweepHeartbeats (hbs : List HeartbeatRow) (now timeout : Int) : List HeartbeatRow :=
  hbs.filter fun h => hasRecentHeartbeat hbs h.workerID now timeout

/-- The recency test holds iff the worker's most recent heartbeat is newer
than `now - timeout`. -/
theorem hasRecentHeartbeat_iff_latest (hbs : List HeartbeatRow) (w : Nat)
    (now timeout : Int) :
    hasRecentHeartbeat hbs w now timeout = true ↔
      ∃ t, latestHeartbeat hbs w = some t ∧ now - timeout < t := by
  induction hbs with
  | nil =>
      simp [hasRecentHeartbeat, latestHeartbeat]
  | cons h rest ih =>
      rw [hasRecentHeartbeat, List.any_cons]
      rw [hasRecentHeartbeat] at ih
      by_cases hw : h.workerID = w
      · rcases hl : latestHeartbeat rest w with _ | t
        · rw [latestHeartbeat, hl, hw]
          simp only [beq_self_eq_true, Bool.true_and, Bool.or_eq_true]
          rw [hl] at ih
          constructor
          · intro hcase
            rcases hcase with hc1 | hc2
            · exact ⟨h.heartbeatAt, rfl, by simpa using hc1⟩
            · rcases ih.1 hc2 with ⟨t, ht, _⟩
              cases ht
          · intro ⟨t, ht, hgt⟩
            left
            have : t = h.heartbeatAt := by
              simpa using ht.symm
            simp [← this, hgt]
        · rw [latestHeartbeat, hl, hw]
          simp only [beq_self_eq_true, Bool.true_and, Bool.or_eq_true]
          rw [hl] at ih
          constructor
          · intro hcase
            rcases hcase with hc1 | hc2
            · refine ⟨max h.heartbeatAt t, rfl, ?_⟩
              have : now - timeout < h.heartbeatAt := by simpa using hc1
              exact lt_max_of_lt_left this
            · rcases ih.1 hc2 with ⟨t', ht', hgt'⟩
              refine ⟨max h.heartbeatAt t, rfl, ?_⟩
              have : t' = t := by simpa using ht'.symm
              exact lt_max_of_lt_right (this ▸ hgt')
          · intro ⟨t', ht', hgt'⟩
            have ht'' : t' = max h.heartbeatAt t := by simpa using ht'.symm
            rw [ht''] at hgt'
            rcases lt_max_iff.1 hgt' with hc | hc
            · left
              simp [hc]
            · right
              exact ih.2 ⟨t, rfl, hc⟩
      · have hbw : (h.workerID == w) = false := by
          simpa using hw
        rw [latestHeartbeat, hbw]
        rcases hl : latestHeartbeat rest w with _ | t
        · rw [hl] at ih
          simp only [hbw, Bool.false_and, Bool.false_or]
          exact ih
        · rw [hl] at ih
          simp only [hbw, Bool.false_and, Bool.false_or]
          exact ih

/-- C7: a registered worker is alive iff its most recent heartbeat is newer
than `now - staleWorkerTimeout`; one Membership Monitor sweep keeps exactly
the registration and heartbeat rows of alive workers and removes the rows of
every worker whose latest heartbeat has aged past the timeout. -/
theorem membership_sweep (workers : List WorkerRow) (hbs : List HeartbeatRow)
    (now timeout : Int) :
    (∀ w, hasRecentHeartbeat hbs w now timeout = true ↔
        ∃ t, latestHeartbeat hbs w = some t ∧ now - timeout < t) ∧
      (∀ w, w ∈ sweepWorkers workers hbs now timeout ↔
        w ∈ workers ∧ hasRecentHeartbeat hbs w.workerID now timeout = true) ∧
      (∀ h, h ∈ sweepHeartbeats hbs now timeout ↔
        h ∈ hbs ∧ hasRecentHeartbeat hbs h.workerID now timeout = true) := by
  refine ⟨fun w => hasRecentHeartbeat_iff_latest hbs w now timeout, ?_, ?_⟩
  · intro w
    rw [sweepWorkers, List.mem_filter]
  · intro h
    rw [sweepHeartbeats, List.mem_filter]

/-- An event as the Event Processing Loop sees it: its global sequence
position and its routing key. -/
structure PEvent where
  pos : Nat
  key : List Nat

/-- Modelled from the spec: the per-batch handler pass of the Event
Processing Loop (the orchestrator's Go implementation is not part of this
documentation repository).  Events the Partition Router does not own are
skipped; owned events are handed to the projection handler in order; the
first handler error halts the pass and is surfaced. -/
def handleBatch (owned : PEvent → Bool) (handle : PEvent → Except String Unit) :
    List PEvent → Option String
  | [] => none
  | e :: rest =>
      if owned e then
        match handle e with
        | .error msg => some msg
        | .ok _ => handleBatch owned handle rest
      else handleBatch owned handle rest

/-- The checkpoint position after a fully processed batch. -/
def batchEnd (cp : Nat) (events : List PEvent) : Nat :=
  events.foldl (fun c e => max c e.pos) cp

/-- Modelled from the spec: one iteration of the Event Processing Loop over a
batch: the checkpoint is advanced, atomically with the handler-side writes,
only when every owned event of the batch was handled successfully; on a
handler error the loop halts with the error surfaced and the checkpoint
unchanged. -/
def runBatch (owned : PEvent → Bool) (handle : PEvent → Except String Unit)
    (cp : Nat) (events : List PEvent) : Nat × Option String :=
  match handleBatch owned handle events with
  | some msg => (cp, some msg)
  | none => (batchEnd cp events, none)

theorem handleBatch_none_iff (owned : PEvent → Bool)
    (handle : PEvent → Except String Unit) (events : List PEvent) :
    handleBatch owned handle events = none ↔
      ∀ e ∈ events, owned e = true → handle e = .ok () := by
  induction events with
  | nil => simp [handleBatch]
  | cons e rest ih =>
      rw [handleBatch]
      by_cases ho : owned e
      · rw [if_pos ho]
        rcases hh : handle e with msg | u
        · simp only [List.mem_cons]
          constructor
          · intro hcontra
            cases hcontra
          · intro hall
            have := hall e (Or.inl rfl) ho
            rw [hh] at this
            cases this
        · cases u
          constructor
          · intro hrest e' he' ho'
            rcases List.mem_cons.1 he' with rfl | htail
            · exact hh
            · exact ih.1 hrest e' htail ho'
          · intro hall
            exact ih.2 fun e' he' ho' => hall e' (List.mem_cons_of_mem e he') ho'
      · rw [if_neg ho]
        constructor
        · intro hrest e' he' ho'
          rcases List.mem_cons.1 he' with rfl | htail
          · exact absurd ho' ho
          · exact ih.1 hrest e' htail ho'
        · intro hall
          exact ih.2 fun e' he' ho' => hall e' (List.mem_cons_of_mem e he') ho'

/-- C9: the Event Processing Loop commits the advanced checkpoint exactly
when every owned event of the batch was handled successfully; if some owned
event's handler fails, the loop halts with the error surfaced and the
checkpoint left unchanged (in particular not advanced past the failing
event). -/
theorem batch_error_halts (owned : PEvent → Bool)
    (handle : PEvent → Except String Unit) (cp : Nat) (events : List PEvent) :
    ((runBatch owned handle cp events).2 = none ↔
        ∀ e ∈ events, owned e = true → handle e = .ok ()) ∧
      ((runBatch owned handle cp events).2 = none →
        (runBatch owned handle cp events).1 = batchEnd cp events) ∧
      (∀ e ∈ events, owned e = true → handle e ≠ .ok () →
        (runBatch owned handle cp events).1 = cp ∧
          (runBatch owned handle cp events).2 ≠ none) := by
  rcases hb : handleBatch owned handle events with _ | msg
  · have hall := (handleBatch_none_iff owned handle events).1 hb
    refine ⟨?_, ?_, ?_⟩
    · rw [runBatch, hb]
      simpa using hall
    · intro _
      rw [runBatch, hb]
    · intro e he ho hne
      exact absurd (hall e he ho) hne
  · refine ⟨?_, ?_, ?_⟩
    · rw [runBatch, hb]
      constructor
      · intro hcontra
        cases hcontra
      · intro hall
        have := (handleBatch_none_iff owned handle events).2 hall
        rw [hb] at this
        cases this
    · intro hcontra
      rw [runBatch, hb] at hcontra
      cases hcontra
    · intro e he ho hne
      rw [runBatch, hb]
      exact ⟨rfl, by simp⟩

/-- The orchestrator configuration as `orchestrator.New` receives it:
presence of the required collaborators and the numeric settings (durations
in nanoseconds, as Go's `time.Duration`). -/
structure OrchestratorConfig where
  hasDB : Bool
  hasEventStore : Bool
  replicaSet : String
  heartbeatInterval : Int
  staleWorkerTimeout : Int
  batchSize : Int

/-- Modelled from the spec: `orchestrator.New` validates its configuration on
creation (the orchestrator's Go implementation is not part of this
documentation repository); the checks and messages follow the configuration
page's list of validation errors. -/
def orchestratorNew (c : OrchestratorConfig) : Except String OrchestratorConfig :=
  if !c.hasDB then .error "DB cannot be nil"
  else if !c.hasEventStore then .error "EventStore cannot be nil"
  else if c.replicaSet = "" then .error "ReplicaSet cannot be empty"
  else if c.heartbeatInterval ≤ 0 then .error "HeartbeatInterval must be positive"
  else if c.staleWorkerTimeout ≤ c.heartbeatInterval then
    .error "StaleWorkerTimeout must be greater than HeartbeatInterval"
  else if c.batchSize ≤ 0 then .error "BatchSize must be positive"
  else .ok c

/-- C10: `orchestrator.New` succeeds exactly when the database and event
store are present, the replica-set name is nonempty, the heartbeat interval
is positive, the stale-worker timeout exceeds the heartbeat interval and the
batch size is positive; on any violation it returns an error and no
orchestrator. -/
theorem orchestratorNew_ok_iff (c : OrchestratorConfig) :
    (orchestratorNew c = .ok c ↔
        c.hasDB = true ∧ c.hasEventStore = true ∧ c.replicaSet ≠ "" ∧
          0 < c.heartbeatInterval ∧
          c.heartbeatInterval < c.staleWorkerTimeout ∧ 0 < c.batchSize) ∧
      ((¬ (c.hasDB = true ∧ c.hasEventStore = true ∧ c.replicaSet ≠ "" ∧
          0 < c.heartbeatInterval ∧
          c.heartbeatInterval < c.staleWorkerTimeout ∧ 0 < c.batchSize)) →
        ∃ msg, orchestratorNew c = .error msg) := by
  constructor
  · rw [orchestratorNew]
    by_cases h1 : c.hasDB <;> by_cases h2 : c.hasEventStore <;>
      by_cases h3 : c.replicaSet = "" <;> by_cases h4 : c.heartbeatInterval ≤ 0 <;>
      by_cases h5 : c.staleWorkerTimeout ≤ c.heartbeatInterval <;>
      by_cases h6 : c.batchSize ≤ 0 <;>
      simp [h1, h2, h3, h4, h5, h6] <;> omega
  · intro hbad
    rw [orchestratorNew]
    by_cases h1 : c.hasDB
    · by_cases h2 : c.hasEventStore
      · by_cases h3 : c.replicaSet = ""
        · exact ⟨"ReplicaSet cannot be empty", by simp [h1, h2, h3]⟩
        · by_cases h4 : c.heartbeatInterval ≤ 0
          · exact ⟨"HeartbeatInterval must be positive", by simp [h1, h2, h3, h4]⟩
          · by_cases h5 : c.staleWorkerTimeout ≤ c.heartbeatInterval
            · exact ⟨"StaleWorkerTimeout must be greater than HeartbeatInterval",
                by simp [h1, h2, h3, h4, h5]⟩
            · by_cases h6 : c.batchSize ≤ 0
              · exact ⟨"BatchSize must be positive", by simp [h1, h2, h3, h4, h5, h6]⟩
              · exact absurd ⟨h1, h2, h3, by omega, by omega, by omega⟩ hbad
      · exact ⟨"EventStore cannot be nil", by simp [h1, h2]⟩
    · exact ⟨"DB cannot be nil", by simp [h1]⟩

end Pup
